import Mathlib

/-!
Shallow embedding of the snark-verifier loader abstraction (`src/loader.rs`) and of the
accumulation harness (`src/system/halo2/test/kzg/halo2.rs`), together with theorems that
check the specification's claims about them.

Loaded scalars are embedded at the native instantiation: a loaded scalar is a plain element
of a commutative monoid / ring / field `F`, and `load_const` is the identity, so the default
trait-method bodies of `src/loader.rs` become plain functions on `F`. Panics (`assert!`,
`unwrap` on empty, `todo!`) are modelled by `Option`/`PanicOr` absence.
-/

namespace SnarkVerifier

/-- Embedding of `halo2_proofs::circuit::Value`: a witness value that is either unknown
(absent during key generation) or known. -/
inductive Value (α : Type) where
  | unknown : Value α
  | known : α → Value α
deriving DecidableEq

/-- Embedding of `KzgAccumulator { lhs, rhs }`: a pair of curve points representing one
deferred pairing check. The point type is left abstract. -/
structure KzgAccumulator (P : Type) where
  lhs : P
  rhs : P
deriving DecidableEq

/-- Embedding of `crate::Error` as surfaced by loader operations; its constructors are
irrelevant to the claims, so it is kept opaque with a single inhabitant. -/
inductive LoaderError where
  | err : LoaderError
deriving DecidableEq

/-- Result of a call that may panic instead of returning: `panic` models a Rust panic
(`todo!`, failed assertion), `ok` a normal return. -/
inductive PanicOr (α : Type) where
  | panic : PanicOr α
  | ok : α → PanicOr α
deriving DecidableEq

/-- Modelled from the spec: `FieldOps::invert` lives outside `src/` (in `util::arithmetic`);
the spec says it "returns nothing when the value is the additive identity under the field
(division by zero), otherwise the multiplicative inverse". `LoadedScalar::invert` in
`src/loader.rs` delegates to it unchanged. -/
def invert {F : Type} [Field F] [DecidableEq F] (x : F) : Option F :=
  if x = 0 then none else some x⁻¹

/-- Embedding of `LoadedScalar::batch_invert` in `src/loader.rs`: every element is replaced
by `invert(value).unwrap_or_else(|| value.clone())`, i.e. its inverse when one exists and
itself otherwise. -/
def batch_invert {F : Type} [Field F] [DecidableEq F] (values : List F) : List F :=
  values.map (fun v => (invert v).getD v)

/-- Embedding of the first loop of `LoadedScalar::pow_const` in `src/loader.rs`
(`while exp & 1 == 0 { base = base.square(); exp >>= 1; }`). The extra `exp ≠ 0` guard only
serves Lean's termination checker: the Rust loop is unreachable with `exp = 0` because of
the preceding `assert!(exp > 0)`, and the loop keeps the exponent positive. -/
def powStripLoop {F : Type} [Monoid F] (base : F) (exp : Nat) : F × Nat :=
  if h : exp ≠ 0 ∧ exp % 2 = 0 then powStripLoop (base * base) (exp / 2)
  else (base, exp)
termination_by exp
decreasing_by exact Nat.div_lt_self (Nat.pos_of_ne_zero h.1) (by decide)

/-- Embedding of the second loop of `LoadedScalar::pow_const`
(`while exp > 1 { exp >>= 1; base = base.square(); if exp & 1 == 1 { acc *= &base; } }`). -/
def powMulLoop {F : Type} [Monoid F] (acc base : F) (exp : Nat) : F :=
  if h : 1 < exp then
    powMulLoop (if (exp / 2) % 2 = 1 then acc * (base * base) else acc) (base * base) (exp / 2)
  else acc
termination_by exp
decreasing_by exact Nat.div_lt_self (by omega) (by decide)

/-- Embedding of `LoadedScalar::pow_const` in `src/loader.rs`. The `assert!(exp > 0)` panic
is modelled by returning `none` on exponent zero. -/
def pow_const {F : Type} [Monoid F] (x : F) (exp : Nat) : Option F :=
  if exp = 0 then none
  else
    let p := powStripLoop x exp
    some (powMulLoop p.1 p.1 p.2)

/-- Embedding of `iter::successors(Some(self.clone()), |power| Some(power.clone() * self))`
truncated by `take`: the sequence `a, a·x, a·x·x, …` of the requested length. -/
def successorsMulTake {F : Type} [Mul F] (x : F) : F → Nat → List F
  | _, 0 => []
  | a, k + 1 => a :: successorsMulTake x (a * x) k

/-- Embedding of `LoadedScalar::powers` in `src/loader.rs`: the loaded one followed by the
successors iterator truncated to `n - 1` elements. (In Rust `n` is a `usize` and `n - 1`
underflows at `n = 0`; here Nat subtraction truncates, and the claims constrain `n ≥ 1`
only.) -/
def powers {F : Type} [Monoid F] (x : F) (n : Nat) : List F :=
  1 :: successorsMulTake x x (n - 1)

/-- Embedding of `Iterator::reduce` specialised to `|acc, term| acc + term`: a left fold of
addition over a non-empty list, absent on the empty list. -/
def reduceAdd {F : Type} [Add F] : List F → Option F
  | [] => none
  | x :: xs => some (xs.foldl (fun a b => a + b) x)

/-- Embedding of `ScalarLoader::sum_with_coeff_and_constant` in `src/loader.rs` at the
native instantiation: empty value list returns the constant; otherwise the constant is
chained only when non-zero, each `(coeff, value)` contributes `value` when `coeff == 1` and
`coeff * value` otherwise, and the terms are reduced with addition. The `.getD 0` models the
final `.unwrap()`, which cannot fire because the term list is non-empty there. -/
def sum_with_coeff_and_constant {F : Type} [CommRing F] [DecidableEq F]
    (values : List (F × F)) (constant : F) : F :=
  if values.isEmpty then constant
  else
    (reduceAdd
      ((if constant = 0 then [] else [constant]) ++
        values.map (fun cv => if cv.1 = 1 then cv.2 else cv.1 * cv.2))).getD 0

/-- Embedding of `ScalarLoader::sum_products_with_coeff_and_constant` in `src/loader.rs` at
the native instantiation: as `sum_with_coeff_and_constant`, with each `(coeff, lhs, rhs)`
contributing `lhs * rhs` when `coeff == 1` and `coeff * lhs * rhs` otherwise. -/
def sum_products_with_coeff_and_constant {F : Type} [CommRing F] [DecidableEq F]
    (values : List (F × F × F)) (constant : F) : F :=
  if values.isEmpty then constant
  else
    (reduceAdd
      ((if constant = 0 then [] else [constant]) ++
        values.map (fun t => if t.1 = 1 then t.2.1 * t.2.2 else t.1 * t.2.1 * t.2.2))).getD 0

/-- Embedding of `ScalarLoader::product` in `src/loader.rs`:
`values.iter().fold(self.load_one(), |acc, value| acc * *value)`. -/
def product {F : Type} [Monoid F] (values : List F) : F :=
  values.foldl (fun a b => a * b) 1

/-- Embedding of the default body of `Loader::ec_point_select` in `src/loader.rs`, which is
`todo!()`: it panics on every input and never returns an `Ok` or `Err` result. -/
def ec_point_select {P S : Type} (_a _b : P) (_sel : S) : PanicOr (Except LoaderError P) :=
  PanicOr.panic

/-- Embedding of the folding branch of `accumulate` in
`src/system/halo2/test/kzg/halo2.rs`: given the accumulators produced by succinct
verification, call the accumulation-scheme verifier when there is more than one, otherwise
`accumulators.pop().unwrap()` (pop the last element, panicking on an empty vector, modelled
by `none`). `As::read_proof`/`As::verify` live outside `src/` and are kept abstract as the
`asVerify` parameter. -/
def accumulateFold {Acc Pf : Type} (asVerify : List Acc → Pf → Option Acc)
    (asProof : Pf) (accumulators : List Acc) : Option Acc :=
  if 1 < accumulators.length then asVerify accumulators asProof
  else accumulators.getLast?

/-- Embedding of the folding branch of `Accumulation::new` in
`src/system/halo2/test/kzg/halo2.rs`: with more than one accumulator it calls
`As::create_proof` (outside `src/`, kept abstract as `createProof`) and records the
finalized transcript as `Value::known`; with exactly one it pops it and leaves the proof
`Value::unknown()`. -/
def accumulationNewFold {Acc Pf : Type} (createProof : List Acc → Option (Acc × Pf))
    (accumulators : List Acc) : Option (Acc × Value Pf) :=
  if 1 < accumulators.length then
    (createProof accumulators).map (fun ap => (ap.1, Value.known ap.2))
  else
    accumulators.getLast?.map (fun a => (a, Value.unknown))

/-- Modelled from the spec: `fe_to_limbs` lives outside `src/` (in `util::arithmetic`); the
spec says each coordinate is "split into limbs per an externally agreed limb-width/count
convention", i.e. `limbs` limbs of `bits` bits each, least-significant first. Field elements
are modelled as naturals. -/
def fe_to_limbs (limbs bits : Nat) (x : Nat) : List Nat :=
  (List.range limbs).map (fun i => x / 2 ^ (bits * i) % 2 ^ bits)

/-- Embedding of the instance construction in `Accumulation::new`:
`[lhs.x, lhs.y, rhs.x, rhs.y].map(fe_to_limbs::<_, _, LIMBS, BITS>).concat()`, with each
curve point modelled as a pair of natural-number coordinates. -/
def accumulationInstances (limbs bits : Nat) (acc : KzgAccumulator (Nat × Nat)) : List Nat :=
  ([acc.lhs.1, acc.lhs.2, acc.rhs.1, acc.rhs.2].map (fe_to_limbs limbs bits)).flatten

/-- Embedding of `Accumulation::accumulator_indices`:
`(0..4 * LIMBS).map(|idx| (0, idx)).collect()`. -/
def accumulatorIndices (limbs : Nat) : List (Nat × Nat) :=
  (List.range (4 * limbs)).map (fun idx => (0, idx))

/-- Embedding of the exposure loop in `Accumulation::synthesize`: the limb lists of
`lhs.x`, `lhs.y`, `rhs.x`, `rhs.y` are chained in that order and enumerated, and limb `i`
is constrained to position `i` of the instance column. -/
def synthesizeExposedCells {A : Type} (lhsx lhsy rhsx rhsy : List A) : List (Nat × A) :=
  (lhsx ++ lhsy ++ rhsx ++ rhsy).enum

/-! Helper lemmas shared by the claim theorems. -/

/-- Left-folding addition over a list from a seed adds the seed to the list sum. -/
lemma foldl_add_eq {F : Type} [AddMonoid F] (x : F) (xs : List F) :
    xs.foldl (fun a b => a + b) x = x + xs.sum := by
  induction xs generalizing x with
  | nil => simp
  | cons y ys ih => simp [ih, add_assoc]

/-- Reducing a non-empty list with addition yields its sum. -/
lemma reduceAdd_cons_getD {F : Type} [AddMonoid F] (x : F) (xs : List F) :
    (reduceAdd (x :: xs)).getD 0 = x + xs.sum := by
  simp [reduceAdd, foldl_add_eq]

/-! Claim theorems. -/

/-- C1: folding exactly one accumulator returns it unchanged without consulting the
accumulation-scheme verifier (`asVerify` is arbitrary and unused), and `Accumulation::new`
leaves the accumulation proof `Value::unknown()` in that case (`createProof` is arbitrary
and unused). -/
theorem C1_singleton_fold_identity {Acc Pf : Type}
    (asVerify : List Acc → Pf → Option Acc) (asProof : Pf)
    (createProof : List Acc → Option (Acc × Pf)) (a : Acc) :
    accumulateFold asVerify asProof [a] = some a ∧
      accumulationNewFold createProof [a] = some (a, Value.unknown) :=
  ⟨rfl, rfl⟩

/-- C5: `batch_invert` maps each element to what element-wise `invert` would produce,
leaving every element without an inverse (zero) unchanged, and preserves the sequence's
length (and, being a map, its element order). -/
theorem C5_batch_invert_elementwise {F : Type} [Field F] [DecidableEq F] (values : List F) :
    batch_invert values = values.map (fun v => if v = 0 then v else v⁻¹) ∧
      (batch_invert values).length = values.length := by
  constructor
  · unfold batch_invert
    congr 1
    funext v
    by_cases hv : v = 0 <;> simp [invert, hv]
  · simp [batch_invert]

/-- C6: `invert` returns nothing exactly on the additive identity, and any returned value
is a left inverse: `y * x = 1`. -/
theorem C6_invert_spec {F : Type} [Field F] [DecidableEq F] (x : F) :
    (invert x = none ↔ x = 0) ∧ ∀ y : F, invert x = some y → y * x = 1 := by
  constructor
  · by_cases hx : x = 0 <;> simp [invert, hx]
  · intro y hy
    by_cases hx : x = 0
    · simp [invert, hx] at hy
    · simp only [invert, if_neg hx, Option.some.injEq] at hy
      subst hy
      exact inv_mul_cancel₀ hx

instance : Fact (Nat.Prime 5) := ⟨by norm_num⟩

/-- Computation of the inverse of 2 in the field with five elements. -/
lemma zmod5_two_inv : (2 : ZMod 5)⁻¹ = 3 := by
  have h2 : (2 : ZMod 5) ≠ 0 := by decide
  have h : (2 : ZMod 5) * 3 = 1 := by decide
  calc (2 : ZMod 5)⁻¹ = (2 : ZMod 5)⁻¹ * ((2 : ZMod 5) * 3) := by rw [h, mul_one]
    _ = ((2 : ZMod 5)⁻¹ * 2) * 3 := by rw [mul_assoc]
    _ = 3 := by rw [inv_mul_cancel₀ h2, one_mul]

/-- Witness for C6 at a concrete input: inverting 2 in the field with five elements. -/
theorem C6_invert_spec_witness :
    invert (2 : ZMod 5) = some 3 ∧ (3 : ZMod 5) * 2 = 1 := by
  have h : invert (2 : ZMod 5) = some 3 := by
    rw [invert, if_neg (by decide : ¬(2 : ZMod 5) = 0), zmod5_two_inv]
  exact ⟨h, (C6_invert_spec (2 : ZMod 5)).2 3 h⟩

/-- C8: the default `ec_point_select` body panics for every choice of arguments; it never
produces a result, neither a success nor an error. -/
theorem C8_ec_point_select_default_panics {P S : Type} (a b : P) (sel : S) :
    ec_point_select a b sel = PanicOr.panic :=
  rfl

/-- Coefficient special-casing is sound: summing the terms with the coefficient-1 shortcut
equals summing the plain `coeff * value` products. -/
lemma sum_map_coeff_terms {F : Type} [CommRing F] [DecidableEq F] (values : List (F × F)) :
    (values.map (fun cv => if cv.1 = 1 then cv.2 else cv.1 * cv.2)).sum
      = (values.map (fun cv => cv.1 * cv.2)).sum := by
  induction values with
  | nil => rfl
  | cons cv vs ih => by_cases h1 : cv.1 = 1 <;> simp [h1, ih]

/-- Coefficient special-casing is sound for the product form as well. -/
lemma sum_map_coeff_prod_terms {F : Type} [CommRing F] [DecidableEq F]
    (values : List (F × F × F)) :
    (values.map (fun t => if t.1 = 1 then t.2.1 * t.2.2 else t.1 * t.2.1 * t.2.2)).sum
      = (values.map (fun t => t.1 * t.2.1 * t.2.2)).sum := by
  induction values with
  | nil => rfl
  | cons t ts ih => by_cases h1 : t.1 = 1 <;> simp [h1, ih]

/-- Omitting a zero constant is sound: reducing the optionally-prepended constant followed
by a non-empty term list yields the constant plus the term sum. -/
lemma reduceAdd_constant_terms {F : Type} [AddMonoid F] [DecidableEq F]
    (c x : F) (ts : List F) :
    (reduceAdd ((if c = 0 then [] else [c]) ++ (x :: ts))).getD 0 = c + (x :: ts).sum := by
  by_cases hc : c = 0
  · simp [hc, reduceAdd_cons_getD]
  · simp [hc, reduceAdd_cons_getD]

/-- C2: `sum_with_coeff_and_constant` returns the constant plus the coefficient-weighted
sum, `sum_products_with_coeff_and_constant` returns the constant plus the
coefficient-weighted sum of products, and on empty value lists both return exactly the
loaded constant; in particular the coefficient-1 and zero-constant special cases do not
change the returned value. -/
theorem C2_sum_with_coeff_and_constant_spec {F : Type} [CommRing F] [DecidableEq F]
    (values : List (F × F)) (triples : List (F × F × F)) (c : F) :
    sum_with_coeff_and_constant values c = c + (values.map (fun cv => cv.1 * cv.2)).sum ∧
      sum_products_with_coeff_and_constant triples c
        = c + (triples.map (fun t => t.1 * t.2.1 * t.2.2)).sum ∧
      sum_with_coeff_and_constant ([] : List (F × F)) c = c ∧
      sum_products_with_coeff_and_constant ([] : List (F × F × F)) c = c := by
  refine ⟨?_, ?_, rfl, rfl⟩
  · cases values with
    | nil => simp [sum_with_coeff_and_constant]
    | cons cv vs =>
      simp only [sum_with_coeff_and_constant, List.isEmpty_cons, Bool.false_eq_true,
        if_false, List.map_cons]
      rw [reduceAdd_constant_terms]
      congr 1
      rw [List.sum_cons, List.sum_cons, sum_map_coeff_terms]
      by_cases h1 : cv.1 = 1 <;> simp [h1]
  · cases triples with
    | nil => simp [sum_products_with_coeff_and_constant]
    | cons t ts =>
      simp only [sum_products_with_coeff_and_constant, List.isEmpty_cons, Bool.false_eq_true,
        if_false, List.map_cons]
      rw [reduceAdd_constant_terms]
      congr 1
      rw [List.sum_cons, List.sum_cons, sum_map_coeff_prod_terms]
      by_cases h1 : t.1 = 1 <;> simp [h1]

/-- Elements produced by the truncated successors iterator, seeded with a power of `x`. -/
lemma successorsMulTake_pow {F : Type} [Monoid F] (x : F) (k : Nat) :
    ∀ m : Nat, successorsMulTake x (x ^ (m + 1)) k
      = (List.range k).map (fun i => x ^ (m + 1 + i)) := by
  induction k with
  | zero => intro m; rfl
  | succ k ih =>
    intro m
    have hx : x ^ (m + 1) * x = x ^ (m + 1 + 1) := (pow_succ x (m + 1)).symm
    have hf : ((fun i => x ^ (m + 1 + i)) ∘ Nat.succ) = fun i => x ^ (m + 1 + 1 + i) := by
      funext i
      simp only [Function.comp_apply]
      congr 1
      omega
    rw [List.range_succ_eq_map, List.map_cons, List.map_map, hf,
      successorsMulTake, hx, ih (m + 1)]

/-- C3: for every `n ≥ 1`, `powers x n` is exactly the ordered list of the first `n` powers
of `x`, starting at the loaded one, and has length exactly `n`. -/
theorem C3_powers_spec {F : Type} [Monoid F] (x : F) (n : Nat) (h : 1 ≤ n) :
    powers x n = (List.range n).map (fun i => x ^ i) ∧ (powers x n).length = n := by
  have key : powers x n = (List.range n).map (fun i => x ^ i) := by
    obtain ⟨k, rfl⟩ : ∃ k, n = k + 1 := ⟨n - 1, by omega⟩
    have hf : ((fun i => x ^ i) ∘ Nat.succ) = fun i => x ^ (1 + i) := by
      funext i
      simp only [Function.comp_apply]
      congr 1
      omega
    have h2 : successorsMulTake x x k = (List.range k).map (fun i => x ^ (1 + i)) := by
      have h3 := successorsMulTake_pow x k 0
      rwa [Nat.zero_add, pow_one] at h3
    rw [powers, Nat.add_sub_cancel, List.range_succ_eq_map, List.map_cons, List.map_map,
      hf, h2]
    simp
  exact ⟨key, by rw [key]; simp⟩

/-- Witness for C3 at a concrete input: the first three powers of 2 over the integers. -/
theorem C3_powers_spec_witness :
    1 ≤ 3 ∧ (powers (2 : Int) 3 = (List.range 3).map (fun i => (2 : Int) ^ i) ∧
      (powers (2 : Int) 3).length = 3) :=
  ⟨by decide, C3_powers_spec 2 3 (by decide)⟩

/-- Invariant of the trailing-zero-stripping loop: it preserves the value `base ^ exp` and
leaves an odd exponent. -/
lemma powStripLoop_spec {F : Type} [Monoid F] :
    ∀ exp : Nat, exp ≠ 0 → ∀ base : F,
      (powStripLoop base exp).1 ^ (powStripLoop base exp).2 = base ^ exp ∧
        (powStripLoop base exp).2 % 2 = 1 := by
  intro exp
  induction exp using Nat.strong_induction_on with
  | _ exp ih =>
    intro hexp base
    rw [powStripLoop]
    by_cases h : exp % 2 = 0
    · rw [dif_pos ⟨hexp, h⟩]
      have h2 : exp / 2 ≠ 0 := by omega
      have hlt : exp / 2 < exp := Nat.div_lt_self (Nat.pos_of_ne_zero hexp) (by decide)
      obtain ⟨hval, hodd⟩ := ih (exp / 2) hlt h2 (base * base)
      refine ⟨?_, hodd⟩
      rw [hval, ← pow_two, ← pow_mul]
      congr 1
      omega
    · rw [dif_neg (fun hc => h hc.2)]
      exact ⟨rfl, by omega⟩

/-- Invariant of the square-and-multiply loop: it multiplies the accumulator by the base
raised to the exponent with its lowest bit cleared. -/
lemma powMulLoop_spec {F : Type} [Monoid F] :
    ∀ exp : Nat, ∀ acc base : F, powMulLoop acc base exp = acc * base ^ (exp - exp % 2) := by
  intro exp
  induction exp using Nat.strong_induction_on with
  | _ exp ih =>
    intro acc base
    rw [powMulLoop]
    by_cases h : 1 < exp
    · rw [dif_pos h]
      rw [ih (exp / 2) (Nat.div_lt_self (by omega) (by decide))]
      have hacc : (if (exp / 2) % 2 = 1 then acc * (base * base) else acc)
          = acc * (base * base) ^ ((exp / 2) % 2) := by
        by_cases he : (exp / 2) % 2 = 1
        · rw [if_pos he, he, pow_one]
        · have h0 : (exp / 2) % 2 = 0 := by omega
          rw [if_neg he, h0, pow_zero, mul_one]
      have hexp2 : 2 * ((exp / 2) % 2 + (exp / 2 - (exp / 2) % 2)) = exp - exp % 2 := by
        omega
      rw [hacc, mul_assoc, ← pow_add, ← pow_two, ← pow_mul, hexp2]
    · rw [dif_neg h]
      have h0 : exp - exp % 2 = 0 := by omega
      rw [h0, pow_zero, mul_one]

/-- The two loops together compute exponentiation for every positive exponent. -/
lemma pow_const_eq_pow {F : Type} [Monoid F] (x : F) (exp : Nat) (h : exp ≠ 0) :
    pow_const x exp = some (x ^ exp) := by
  obtain ⟨hval, hodd⟩ := powStripLoop_spec exp h x
  have hpos : (powStripLoop x exp).2 ≠ 0 := by omega
  simp only [pow_const, if_neg h, Option.some.injEq]
  rw [powMulLoop_spec, hodd, ← pow_succ']
  have h1 : (powStripLoop x exp).2 - 1 + 1 = (powStripLoop x exp).2 := by omega
  rw [h1, hval]

/-- C4: `pow_const` computes `x ^ exp` for every positive exponent via the binary
square-and-multiply loop. -/
theorem C4_pow_const_square_and_multiply {F : Type} [Monoid F] (x : F) (exp : Nat)
    (h : 0 < exp) : pow_const x exp = some (x ^ exp) :=
  pow_const_eq_pow x exp (by omega)

/-- Witness for C4 at a concrete input: 3 to the fifth power over the integers. -/
theorem C4_pow_const_square_and_multiply_witness :
    0 < 5 ∧ pow_const (3 : Int) 5 = some 243 :=
  ⟨by decide, (C4_pow_const_square_and_multiply (3 : Int) 5 (by decide)).trans (by decide)⟩

/-- C9: `pow_const` fails (the assertion fires, modelled by `none`) exactly on the zero
exponent; every positive exponent passes the assertion and returns a value. -/
theorem C9_pow_const_zero_asserts {F : Type} [Monoid F] (x : F) :
    pow_const x 0 = none ∧ ∀ exp : Nat, 0 < exp → ∃ y : F, pow_const x exp = some y :=
  ⟨rfl, fun exp _h => ⟨x ^ exp, pow_const_eq_pow x exp (by omega)⟩⟩

/-- Witness for C9 at concrete inputs: exponent 0 panics, exponent 3 returns a value. -/
theorem C9_pow_const_zero_asserts_witness :
    pow_const (2 : Int) 0 = none ∧ 0 < 3 ∧ ∃ y : Int, pow_const (2 : Int) 3 = some y :=
  ⟨(C9_pow_const_zero_asserts (2 : Int)).1, by decide,
    (C9_pow_const_zero_asserts (2 : Int)).2 3 (by decide)⟩

/-- C10: `product` is the left fold of multiplication starting from the loaded one: on the
empty list it returns exactly the loaded one, and in general it equals the list product
1 · v₁ · … · vₙ. -/
theorem C10_product_fold {F : Type} [Monoid F] (values : List F) :
    product values = values.prod ∧ product ([] : List F) = 1 := by
  refine ⟨?_, rfl⟩
  rw [product, List.prod_eq_foldl]

/-- C7: the public instance vector is exactly the concatenation of the limb decompositions
of lhs.x, lhs.y, rhs.x, rhs.y in that order, of length exactly 4·LIMBS;
`accumulator_indices` enumerates exactly the positions (0, 0) … (0, 4·LIMBS − 1) of the
instance column; and the synthesis step exposes limb `i` of that concatenation at instance
position `i`. -/
theorem C7_accumulator_public_output (limbs bits : Nat) (acc : KzgAccumulator (Nat × Nat)) :
    accumulationInstances limbs bits acc
        = fe_to_limbs limbs bits acc.lhs.1 ++ fe_to_limbs limbs bits acc.lhs.2 ++
            fe_to_limbs limbs bits acc.rhs.1 ++ fe_to_limbs limbs bits acc.rhs.2 ∧
      (accumulationInstances limbs bits acc).length = 4 * limbs ∧
      (accumulatorIndices limbs).length = 4 * limbs ∧
      (∀ i : Nat, i < 4 * limbs → (accumulatorIndices limbs)[i]? = some (0, i)) ∧
      synthesizeExposedCells (fe_to_limbs limbs bits acc.lhs.1)
          (fe_to_limbs limbs bits acc.lhs.2) (fe_to_limbs limbs bits acc.rhs.1)
          (fe_to_limbs limbs bits acc.rhs.2)
        = (accumulationInstances limbs bits acc).enum := by
  refine ⟨?_, ?_, ?_, ?_, ?_⟩
  · simp [accumulationInstances, List.append_assoc]
  · simp only [accumulationInstances, List.length_flatten, List.map_cons, List.map_nil,
      fe_to_limbs, List.length_map, List.length_range, List.sum_cons, List.sum_nil]
    omega
  · simp [accumulatorIndices]
  · intro i hi
    simp [accumulatorIndices, List.getElem?_map, List.getElem?_range hi]
  · simp [synthesizeExposedCells, accumulationInstances, List.append_assoc]

/-- Witness for C7 at concrete inputs: one limb of two bits per coordinate, the accumulator
with coordinates 5, 6, 7, 8, and column position 3. -/
theorem C7_accumulator_public_output_witness :
    accumulationInstances 1 2 ⟨(5, 6), (7, 8)⟩
        = fe_to_limbs 1 2 5 ++ fe_to_limbs 1 2 6 ++ fe_to_limbs 1 2 7 ++ fe_to_limbs 1 2 8 ∧
      (accumulationInstances 1 2 ⟨(5, 6), (7, 8)⟩).length = 4 * 1 ∧
      (accumulatorIndices 1).length = 4 * 1 ∧
      (3 < 4 * 1 ∧ (accumulatorIndices 1)[3]? = some (0, 3)) ∧
      synthesizeExposedCells (fe_to_limbs 1 2 5) (fe_to_limbs 1 2 6) (fe_to_limbs 1 2 7)
          (fe_to_limbs 1 2 8)
        = (accumulationInstances 1 2 ⟨(5, 6), (7, 8)⟩).enum := by
  have h := C7_accumulator_public_output 1 2 ⟨(5, 6), (7, 8)⟩
  exact ⟨h.1, h.2.1, h.2.2.1, ⟨by decide, h.2.2.2.1 3 (by decide)⟩, h.2.2.2.2⟩

end SnarkVerifier
